import Mathlib

/-!
Verification of the habit-tracker store (`src/project.py`) against its
natural-language specification.

Modelling conventions (shallow embedding):
* Calendar dates are modelled as `Int` (a day number).  The Python code keeps
  ISO-8601 `YYYY-MM-DD` strings and sorts them; lexicographic order on such
  strings agrees with chronological order, and `(a - b).days` corresponds to
  integer subtraction of day numbers.
* Python `dict`s keyed by habit identifiers are modelled as association lists.
  A Python habit id is either an `int` (ids allocated by `add_habit` in the
  running session) or a `str` (ids loaded back from the JSON file, and ids
  typed at the CLI); the `Key` type captures both, compared — like Python —
  by exact, unnormalised equality.
* `datetime.now()` is injected as an explicit `today` parameter.
* Exceptions escaping a store operation (Python `KeyError`) are modelled as an
  explicit result constructor, with the state mutated exactly as far as the
  Python code had mutated it when the exception was raised.
-/

/-- A Python dict key as used by the tracker: `int` for ids allocated by
`add_habit` in the current session, `str` for ids loaded from JSON or typed
at the CLI.  Equality is exact, with no normalisation between the forms. -/
inductive Key where
  | int : Int → Key
  | str : String → Key
deriving DecidableEq

/-- One habit record, mirroring the dict built in `add_habit`
(src/project.py lines 29-37). -/
structure Habit where
  name : String
  category : String
  frequency : String
  goal : Option String
  created_date : String
  current_streak : Nat
  longest_streak : Nat
deriving DecidableEq

/-- Lookup in an association list modelling Python dict indexing. -/
def alistLookup {α : Type} (k : Key) : List (Key × α) → Option α
  | [] => none
  | (k1, v) :: rest => if k1 = k then some v else alistLookup k rest

/-- Python `k in d` membership test on a dict. -/
def alistContains {α : Type} (k : Key) (l : List (Key × α)) : Bool :=
  (alistLookup k l).isSome

/-- Python `d[k] = v`: replace the value when the key is present (dict keys are
unique, so every matching entry is rewritten), append a fresh entry when it is
absent. -/
def alistSet {α : Type} (k : Key) (v : α) (l : List (Key × α)) : List (Key × α) :=
  if alistContains k l then l.map (fun p => if p.1 = k then (k, v) else p)
  else l ++ [(k, v)]

/-- Python `del d[k]` on a dict: the entry for `k` is removed (dict keys are
unique, so removing every matching entry is the same operation). -/
def alistErase {α : Type} (k : Key) (l : List (Key × α)) : List (Key × α) :=
  l.filter (fun p => ¬ p.1 = k)

/-- The in-memory state `self.habits`: the `"habits"` mapping and the
`"completions"` mapping (src/project.py line 18). -/
structure Store where
  habits : List (Key × Habit)
  completions : List (Key × List Int)
deriving DecidableEq

/-- Insertion into a sorted list, one step of the ascending sort performed by
Python `sorted` (src/project.py line 69). -/
def insertSorted (d : Int) : List Int → List Int
  | [] => [d]
  | x :: rest => if d ≤ x then d :: x :: rest else x :: insertSorted d rest

/-- Python `sorted(completions)`: the ascending reordering of the list. -/
def sortDates (l : List Int) : List Int :=
  l.foldr insertSorted []

/-- The current-streak loop of `update_streaks` (src/project.py lines 79-85):
walk the sorted completions newest first, counting while each date equals the
cursor or the cursor minus one day, and stopping at the first failure. -/
def currentStreakLoop : List Int → Int → Nat → Nat
  | [], _, acc => acc
  | d :: rest, prev, acc =>
      if d = prev ∨ d = prev - 1 then currentStreakLoop rest d (acc + 1) else acc

/-- The longest-streak loop of `update_streaks` (src/project.py lines 88-99):
scan the sorted completions left to right keeping the current run length, and
fold the run into the maximum at every gap and once at the end. -/
def longestStreakLoop : List Int → Int → Nat → Nat → Nat
  | [], _, longest, temp => max longest temp
  | d :: rest, prev, longest, temp =>
      if d - prev = 1 then longestStreakLoop rest d longest (temp + 1)
      else longestStreakLoop rest d (max longest temp) 1

/-- The longest-streak computation on an already sorted completion list:
`0` on the empty list, otherwise the scan starting with a run of length one. -/
def longestOf : List Int → Nat
  | [] => 0
  | d :: rest => longestStreakLoop rest d 0 1

/-- `update_streaks` (src/project.py lines 67-99) as a pure function of the
reference date and the completion list: the pair
`(current_streak, longest_streak)` it stores on the habit. -/
def updateStreaks (today : Int) (completions : List Int) : Nat × Nat :=
  (currentStreakLoop (sortDates completions).reverse today 0,
   longestOf (sortDates completions))

/-- Outcome of `mark_complete`: `success` models `return True`,
`alreadyCompleted` models the `return False` branch, and `keyError` models the
uncaught `KeyError` raised inside `update_streaks` (src/project.py line 101)
when the id has no entry in the `"habits"` mapping. -/
inductive MarkResult where
  | success
  | alreadyCompleted
  | keyError
deriving DecidableEq

/-- Outcome of `delete_habit`: `deleted` for the successful branch, `notFound`
for the "Habit not found!" branch, and `keyError` for the `KeyError` a
`del` on a missing `"completions"` entry would raise (src/project.py
line 217). -/
inductive DeleteResult where
  | deleted
  | notFound
  | keyError
deriving DecidableEq

/-- `add_habit` (src/project.py lines 25-44): id is `len(habits) + 1`, the
habit record starts with zero streaks, and a completions entry is created only
when the id does not already have one.  Returns the allocated id with the new
store. -/
def addHabit (s : Store) (name category frequency : String) (goal : Option String)
    (createdDate : String) : Key × Store :=
  let habit_id := Key.int ((s.habits.length : Int) + 1)
  let h : Habit := ⟨name, category, frequency, goal, createdDate, 0, 0⟩
  let habits1 := alistSet habit_id h s.habits
  let completions1 :=
    if alistContains habit_id s.completions then s.completions
    else alistSet habit_id [] s.completions
  (habit_id, Store.mk habits1 completions1)

/-- `mark_complete` (src/project.py lines 46-65) together with the
`update_streaks` call it makes: ensure a completions entry exists, reject a
duplicate date, otherwise append today and recompute the streak fields — a
step that raises `KeyError` (leaving the appended completion in place and the
habit mapping untouched) when the id is absent from `"habits"`. -/
def markComplete (s : Store) (habit_id : Key) (today : Int) : MarkResult × Store :=
  let completions1 :=
    if alistContains habit_id s.completions then s.completions
    else alistSet habit_id [] s.completions
  let log := (alistLookup habit_id completions1).getD []
  if today ∈ log then
    (MarkResult.alreadyCompleted, Store.mk s.habits completions1)
  else
    let completions2 := alistSet habit_id (log ++ [today]) completions1
    match alistLookup habit_id s.habits with
    | some h =>
        let st := updateStreaks today (log ++ [today])
        let h2 : Habit := ⟨h.name, h.category, h.frequency, h.goal, h.created_date, st.1, st.2⟩
        (MarkResult.success, Store.mk (alistSet habit_id h2 s.habits) completions2)
    | none => (MarkResult.keyError, Store.mk s.habits completions2)

/-- `delete_habit` (src/project.py lines 212-221): delete both entries when
the id is a key of the habit mapping, otherwise report "not found" and leave
the store untouched.  The `keyError` branch records what the second `del`
does when the completions entry is missing. -/
def deleteHabit (s : Store) (habit_id : Key) : DeleteResult × Store :=
  if alistContains habit_id s.habits then
    let habits1 := alistErase habit_id s.habits
    if alistContains habit_id s.completions then
      (DeleteResult.deleted, Store.mk habits1 (alistErase habit_id s.completions))
    else
      (DeleteResult.keyError, Store.mk habits1 s.completions)
  else
    (DeleteResult.notFound, s)

/-- Length of the maximal initial segment of a (descending) list in which each
entry is exactly one day below its predecessor.  Applied to the reversed
sorted completion list this is the length of the run the current-streak walk
can at most traverse. -/
def descRun : List Int → Nat
  | [] => 0
  | [_] => 1
  | a :: b :: rest => if a - b = 1 then descRun (b :: rest) + 1 else 1

/-- Last element of a list of dates, `0` for the empty list. -/
def lastD : List Int → Int
  | [] => 0
  | [a] => a
  | _ :: b :: rest => lastD (b :: rest)

/-- The length the `temp_streak` counter of `update_streaks` has after
scanning the remaining dates: the length of the final consecutive run, with
`temp` the credit accumulated so far. -/
def finRunAux : Int → List Int → Nat → Nat
  | _, [], temp => temp
  | prev, d :: rest, temp => finRunAux d rest (if d - prev = 1 then temp + 1 else 1)

/-- Length of the final consecutive run of a sorted completion list. -/
def finRun : List Int → Nat
  | [] => 0
  | a :: rest => finRunAux a rest 1

/-- `get_today_completions` (src/project.py lines 104-113): ids of the
completions entries whose date list contains today. -/
def todayCompletions (s : Store) (today : Int) : List Key :=
  (s.completions.filter (fun p => today ∈ p.2)).map Prod.fst

/-- The per-day count of the weekly report (src/project.py lines 153-161):
how many completions entries contain the given date. -/
def dayCompletions (s : Store) (d : Int) : Nat :=
  (s.completions.filter (fun p => d ∈ p.2)).length

/-- The seven dates of the report week, `week_start + i` for `i < 7`
(src/project.py line 143). -/
def weekDates (weekStart : Int) : List Int :=
  (List.range 7).map (fun i => weekStart + (i : Int))

/-- The `daily_completions` list of `view_weekly_report`. -/
def weeklyDaily (s : Store) (weekStart : Int) : List Nat :=
  (weekDates weekStart).map (fun d => dayCompletions s d)

/-- The per-day `(completed, percentage)` pairs printed by
`view_weekly_report` (src/project.py lines 165-174), with the percentage
computed as `(completed / total) * 100 if total > 0 else 0`. -/
def weeklyPerDay (s : Store) (weekStart : Int) : List (Nat × Rat) :=
  (weeklyDaily s weekStart).map (fun c =>
    (c, if s.habits.length > 0 then (c : Rat) / (s.habits.length : Rat) * 100 else 0))

/-- The `week_percentage` aggregate of `view_weekly_report` (src/project.py
lines 176-179): completions over `total_habits * 7`, guarded to `0` when no
habit exists. -/
def weeklyAggregate (s : Store) (weekStart : Int) : Rat :=
  let completed := (weeklyDaily s weekStart).sum
  let possible := s.habits.length * 7
  if possible > 0 then (completed : Rat) / (possible : Rat) * 100 else 0

/-- The record accumulated per category by `view_category_stats`
(src/project.py lines 186-197). -/
structure CatStats where
  total : Nat
  completed : Nat
  streaks : List Nat
deriving DecidableEq

/-- The categories of the report, in first-occurrence order over the habit
mapping; a category with no habit never appears. -/
def categoriesIn (s : Store) : List String :=
  (s.habits.map (fun p => p.2.category)).dedup

/-- The stats record accumulated for one category: habit count, count of
today's completions whose habit belongs to the category (a completions id
missing from the habit mapping — on which the Python line
`self.habits["habits"][habit_id]["category"]` would raise — contributes to no
category), and the list of current streaks. -/
def catStatsFor (s : Store) (today : Int) (c : String) : CatStats :=
  ⟨(s.habits.filter (fun p => p.2.category = c)).length,
   (todayCompletions s today).countP
     (fun k => (alistLookup k s.habits).map Habit.category = some c),
   (s.habits.filter (fun p => p.2.category = c)).map (fun p => p.2.current_streak)⟩

/-- `completion_rate` of `view_category_stats` (src/project.py line 204):
`completed / total * 100 if total > 0 else 0`. -/
def completionRate (st : CatStats) : Rat :=
  if st.total > 0 then (st.completed : Rat) / (st.total : Rat) * 100 else 0

/-- `avg_streak` of `view_category_stats` (src/project.py line 205):
`sum(streaks) / len(streaks) if streaks else 0`. -/
def avgStreak (st : CatStats) : Rat :=
  if st.streaks = [] then 0
  else ((st.streaks.map (fun n => (n : Rat))).sum) / (st.streaks.length : Rat)

/-- `max(streaks) if streaks else 0` (src/project.py line 210). -/
def bestStreak (st : CatStats) : Nat :=
  if st.streaks = [] then 0 else st.streaks.foldl max 0

/-- `view_category_stats` (src/project.py lines 184-210) as a pure report:
for each category its completion rate, average streak and best streak. -/
def viewCategoryStats (s : Store) (today : Int) : List (String × Rat × Rat × Nat) :=
  (categoriesIn s).map (fun c =>
    (c, completionRate (catStatsFor s today c), avgStreak (catStatsFor s today c),
     bestStreak (catStatsFor s today c)))

/-- Modelled from the spec numeric semantics: percentages are
`completed / total * 100`, defined as `0` when `total == 0`. -/
def specPercentage (completed total : Nat) : Rat :=
  if total = 0 then 0 else (completed : Rat) / (total : Rat) * 100

/-- Modelled from the spec numeric semantics: averages guard empty groups,
yielding `0`. -/
def specAverage (l : List Nat) : Rat :=
  if l = [] then 0 else ((l.map (fun n => (n : Rat))).sum) / (l.length : Rat)

/-- The JSON form of a dict key produced by `json.dump` (src/project.py
line 23): an `int` key is written as its decimal string, a `str` key is
written unchanged. -/
def keyToStr : Key → String
  | Key.int n => toString n
  | Key.str s => s

/-- `save_data` followed by `load_data` (src/project.py lines 13-23):
`json.dump` coerces every dict key to its string form and `json.load` returns
exactly those strings as keys, while every field value round-trips
unchanged. -/
def roundTripStore (s : Store) : Store :=
  Store.mk
    (s.habits.map (fun p => (Key.str (keyToStr p.1), p.2)))
    (s.completions.map (fun p => (Key.str (keyToStr p.1), p.2)))

/-- One mutating store operation of the tracker. -/
inductive Op where
  | add : String → String → String → Option String → String → Op
  | mark : Key → Int → Op
  | del : Key → Op

/-- Apply one operation to the store, discarding the reported outcome. -/
def applyOp (s : Store) : Op → Store
  | Op.add n c f g d => (addHabit s n c f g d).2
  | Op.mark k t => (markComplete s k t).2
  | Op.del k => (deleteHabit s k).2

/-- Run a sequence of operations left to right. -/
def runOps (s : Store) (ops : List Op) : Store :=
  ops.foldl applyOp s

/-- An operation is good when any `mark_complete` it performs targets an id
present in the habit mapping. -/
def goodOpB (s : Store) : Op → Bool
  | Op.mark k _ => alistContains k s.habits
  | _ => true

/-- Every operation of the sequence is good at the state it runs in. -/
def goodOpsB : Store → List Op → Bool
  | _, [] => true
  | s, op :: rest => goodOpB s op && goodOpsB (applyOp s op) rest

/-- The store invariant of the spec: every id of the habit mapping has a
completions entry and vice versa. -/
def storeInvB (s : Store) : Bool :=
  s.habits.all (fun p => alistContains p.1 s.completions) &&
  s.completions.all (fun p => alistContains p.1 s.habits)

/-- Propositional form of the store invariant. -/
def StoreInv (s : Store) : Prop :=
  ∀ k, (alistContains k s.habits = true ↔ alistContains k s.completions = true)


/-! ### One-step equations for the recursive functions -/

theorem currentStreakLoop_nil (p : Int) (a : Nat) : currentStreakLoop [] p a = a := rfl

theorem currentStreakLoop_cons (d : Int) (rest : List Int) (p : Int) (a : Nat) :
    currentStreakLoop (d :: rest) p a =
      if d = p ∨ d = p - 1 then currentStreakLoop rest d (a + 1) else a := rfl

theorem longestStreakLoop_nil (p : Int) (lg t : Nat) :
    longestStreakLoop [] p lg t = max lg t := rfl

theorem longestStreakLoop_cons (d : Int) (rest : List Int) (p : Int) (lg t : Nat) :
    longestStreakLoop (d :: rest) p lg t =
      if d - p = 1 then longestStreakLoop rest d lg (t + 1)
      else longestStreakLoop rest d (max lg t) 1 := rfl

theorem descRun_cons_cons (a b : Int) (rest : List Int) :
    descRun (a :: b :: rest) = if a - b = 1 then descRun (b :: rest) + 1 else 1 := rfl

theorem finRunAux_nil (p : Int) (t : Nat) : finRunAux p [] t = t := rfl

theorem finRunAux_cons (p d : Int) (rest : List Int) (t : Nat) :
    finRunAux p (d :: rest) t = finRunAux d rest (if d - p = 1 then t + 1 else 1) := rfl

theorem insertSorted_cons (d x : Int) (rest : List Int) :
    insertSorted d (x :: rest) =
      if d ≤ x then d :: x :: rest else x :: insertSorted d rest := rfl

theorem sortDates_cons (a : Int) (l : List Int) :
    sortDates (a :: l) = insertSorted a (sortDates l) := rfl

/-! ### Lemmas about the sorting step -/

theorem insertSorted_perm (d : Int) :
    ∀ l : List Int, List.Perm (insertSorted d l) (d :: l)
  | [] => List.Perm.refl _
  | x :: rest => by
      rw [insertSorted_cons]
      by_cases h : d ≤ x
      · rw [if_pos h]
      · rw [if_neg h]
        exact ((insertSorted_perm d rest).cons x).trans (List.Perm.swap d x rest)

theorem sortDates_perm (l : List Int) : List.Perm (sortDates l) l := by
  induction l with
  | nil => exact List.Perm.refl _
  | cons a rest ih =>
    rw [sortDates_cons]
    exact (insertSorted_perm a (sortDates rest)).trans (ih.cons a)

theorem insertSorted_sorted (d : Int) {l : List Int} (hs : List.Sorted (· ≤ ·) l) :
    List.Sorted (· ≤ ·) (insertSorted d l) := by
  induction l with
  | nil => simp [insertSorted]
  | cons x rest ih =>
    rw [List.sorted_cons] at hs
    obtain ⟨hx, hrest⟩ := hs
    rw [insertSorted_cons]
    by_cases hdx : d ≤ x
    · rw [if_pos hdx, List.sorted_cons]
      refine ⟨?_, ?_⟩
      · intro b hb
        rcases List.mem_cons.mp hb with rfl | hb2
        · exact hdx
        · exact le_trans hdx (hx b hb2)
      · rw [List.sorted_cons]
        exact ⟨hx, hrest⟩
    · rw [if_neg hdx, List.sorted_cons]
      refine ⟨?_, ih hrest⟩
      intro b hb
      have hmem := (insertSorted_perm d rest).mem_iff.mp hb
      rcases List.mem_cons.mp hmem with rfl | hb2
      · omega
      · exact hx b hb2

theorem sortDates_sorted (l : List Int) : List.Sorted (· ≤ ·) (sortDates l) := by
  induction l with
  | nil => simp [sortDates, List.Sorted]
  | cons a rest ih => exact insertSorted_sorted a ih

theorem sortDates_sorted_lt {l : List Int} (h : l.Nodup) :
    List.Sorted (· < ·) (sortDates l) := by
  have hnd : (sortDates l).Nodup := ((sortDates_perm l).nodup_iff).mpr h
  have hs := sortDates_sorted l
  exact List.Pairwise.imp (fun hab => lt_of_le_of_ne hab.1 hab.2) (hs.and hnd)

theorem sortDates_eq_of_sorted_perm {l m : List Int} (hp : List.Perm l m)
    (hm : List.Sorted (· ≤ ·) m) : sortDates l = m :=
  List.eq_of_perm_of_sorted ((sortDates_perm l).trans hp) (sortDates_sorted l) hm

/-! ### Lemmas about the streak loops -/

theorem currentStreakLoop_acc : ∀ (l : List Int) (p : Int) (a : Nat),
    currentStreakLoop l p a = a + currentStreakLoop l p 0 := by
  intro l
  induction l with
  | nil => intro p a; simp [currentStreakLoop_nil]
  | cons d rest ih =>
    intro p a
    rw [currentStreakLoop_cons, currentStreakLoop_cons]
    by_cases h : d = p ∨ d = p - 1
    · rw [if_pos h, if_pos h, ih d (a + 1), ih d (0 + 1)]
      omega
    · rw [if_neg h, if_neg h]
      omega

theorem currentStreakLoop_le_descRun : ∀ (r : List Int),
    List.Chain' (fun a b => b < a) r →
    ∀ today, currentStreakLoop r today 0 ≤ descRun r := by
  intro r
  induction r with
  | nil => intro _ today; simp [currentStreakLoop_nil, descRun]
  | cons a tail ih =>
    intro hch today
    cases tail with
    | nil =>
      rw [currentStreakLoop_cons]
      by_cases h : a = today ∨ a = today - 1
      · rw [if_pos h, currentStreakLoop_nil]
        simp [descRun]
      · rw [if_neg h]
        simp [descRun]
    | cons b rest =>
      rw [List.chain'_cons] at hch
      obtain ⟨hba, hch2⟩ := hch
      rw [currentStreakLoop_cons, descRun_cons_cons]
      by_cases h : a = today ∨ a = today - 1
      · rw [if_pos h, currentStreakLoop_acc]
        by_cases hd : a - b = 1
        · rw [if_pos hd]
          have := ih hch2 a
          omega
        · rw [if_neg hd]
          have h0 : currentStreakLoop (b :: rest) a 0 = 0 := by
            rw [currentStreakLoop_cons, if_neg (by omega)]
          omega
      · rw [if_neg h]
        omega

theorem lastD_append_single : ∀ (l : List Int) (x : Int), lastD (l ++ [x]) = x := by
  intro l
  induction l with
  | nil => intro x; rfl
  | cons a tail ih =>
    intro x
    cases tail with
    | nil => rfl
    | cons b rest => exact ih x

theorem finRunAux_append_single : ∀ (l : List Int) (prev : Int) (t : Nat) (x : Int),
    finRunAux prev (l ++ [x]) t =
      if x - lastD (prev :: l) = 1 then finRunAux prev l t + 1 else 1 := by
  intro l
  induction l with
  | nil =>
    intro prev t x
    rw [List.nil_append, finRunAux_cons, finRunAux_nil, finRunAux_nil]
    have hl : lastD [prev] = prev := rfl
    rw [hl]
  | cons a tail ih =>
    intro prev t x
    rw [List.cons_append, finRunAux_cons, ih, finRunAux_cons]
    have hl : lastD (prev :: a :: tail) = lastD (a :: tail) := rfl
    rw [hl]

theorem finRun_append_single : ∀ (l : List Int) (x : Int), l ≠ [] →
    finRun (l ++ [x]) = if x - lastD l = 1 then finRun l + 1 else 1 := by
  intro l x hne
  cases l with
  | nil => exact absurd rfl hne
  | cons c rest =>
    rw [List.cons_append]
    have h1 : finRun (c :: (rest ++ [x])) = finRunAux c (rest ++ [x]) 1 := rfl
    have h2 : finRun (c :: rest) = finRunAux c rest 1 := rfl
    rw [h1, h2, finRunAux_append_single rest c 1 x]

theorem descRun_eq_finRun_reverse : ∀ r : List Int, descRun r = finRun r.reverse := by
  intro r
  induction r with
  | nil => rfl
  | cons a tail ih =>
    cases tail with
    | nil => rfl
    | cons b rest =>
      have hrev : (a :: b :: rest).reverse = (b :: rest).reverse ++ [a] :=
        List.reverse_cons a (b :: rest)
      rw [hrev, finRun_append_single ((b :: rest).reverse) a (by simp)]
      have hlast : lastD ((b :: rest).reverse) = b := by
        rw [List.reverse_cons b rest]
        exact lastD_append_single rest.reverse b
      rw [hlast, ← ih, descRun_cons_cons]

theorem finRunAux_le_longestStreakLoop : ∀ (rest : List Int) (prev : Int) (lg t : Nat),
    finRunAux prev rest t ≤ longestStreakLoop rest prev lg t := by
  intro rest
  induction rest with
  | nil =>
    intro prev lg t
    rw [finRunAux_nil, longestStreakLoop_nil]
    omega
  | cons d rs ih =>
    intro prev lg t
    rw [finRunAux_cons, longestStreakLoop_cons]
    by_cases h : d - prev = 1
    · rw [if_pos h, if_pos h]
      exact ih d lg (t + 1)
    · rw [if_neg h, if_neg h]
      exact ih d (max lg t) 1

theorem finRun_le_longestOf : ∀ s : List Int, finRun s ≤ longestOf s := by
  intro s
  cases s with
  | nil => simp [finRun, longestOf]
  | cons d rest => exact finRunAux_le_longestStreakLoop rest d 0 1

theorem reverse_chain_gt {l : List Int} (h : List.Sorted (· < ·) l) :
    List.Chain' (fun a b => b < a) l.reverse := by
  have hpw : List.Pairwise (fun a b => b < a) l.reverse :=
    List.pairwise_reverse.mpr h
  exact hpw.chain'

/-! ### Claim C1 -/

/-- C1: for every completion-date set (no duplicate dates) and every reference
date `today`, the streak recomputation of `update_streaks` yields
`longest_streak >= current_streak`: the run the current-streak walk counts is
a final consecutive run of the sorted dates, and the longest-streak scan
considers that run. -/
theorem updateStreaks_longest_ge_current (today : Int) (l : List Int) (h : l.Nodup) :
    (updateStreaks today l).1 ≤ (updateStreaks today l).2 := by
  have hchain : List.Chain' (fun a b => b < a) (sortDates l).reverse :=
    reverse_chain_gt (sortDates_sorted_lt h)
  have h1 := currentStreakLoop_le_descRun _ hchain today
  have h2 := descRun_eq_finRun_reverse (sortDates l).reverse
  rw [List.reverse_reverse] at h2
  have h3 := finRun_le_longestOf (sortDates l)
  show currentStreakLoop (sortDates l).reverse today 0 ≤ longestOf (sortDates l)
  omega

/-- Witness for C1 at the concrete set `{0, 1, 5}` with `today = 1`. -/
theorem updateStreaks_longest_ge_current_witness :
    ([0, 1, 5] : List Int).Nodup ∧
      (updateStreaks 1 [0, 1, 5]).1 ≤ (updateStreaks 1 [0, 1, 5]).2 :=
  ⟨by decide, updateStreaks_longest_ge_current 1 [0, 1, 5] (by decide)⟩

/-! ### Claim C5 -/

/-- C5: for the completion set `{today, today-5, today-6, today-7}` the
recomputation yields `current_streak = 1` and `longest_streak = 3`. -/
theorem updateStreaks_scenario_B (t : Int) :
    updateStreaks t [t, t - 5, t - 6, t - 7] = (1, 3) := by
  have hm : List.Sorted (· ≤ ·) [t - 7, t - 6, t - 5, t] := by
    simp [List.sorted_cons]
    omega
  have hp : List.Perm [t, t - 5, t - 6, t - 7] [t - 7, t - 6, t - 5, t] := by
    have h := List.reverse_perm [t, t - 5, t - 6, t - 7]
    simpa using h.symm
  have hs : sortDates [t, t - 5, t - 6, t - 7] = [t - 7, t - 6, t - 5, t] :=
    sortDates_eq_of_sorted_perm hp hm
  show (currentStreakLoop (sortDates [t, t - 5, t - 6, t - 7]).reverse t 0,
        longestOf (sortDates [t, t - 5, t - 6, t - 7])) = (1, 3)
  rw [hs]
  have hrev : ([t - 7, t - 6, t - 5, t] : List Int).reverse = [t, t - 5, t - 6, t - 7] := by
    simp
  rw [hrev]
  have hcur : currentStreakLoop [t, t - 5, t - 6, t - 7] t 0 = 1 := by
    rw [currentStreakLoop_cons, if_pos (by omega), currentStreakLoop_cons,
        if_neg (by omega)]
  have hlong : longestOf [t - 7, t - 6, t - 5, t] = 3 := by
    show longestStreakLoop [t - 6, t - 5, t] (t - 7) 0 1 = 3
    rw [longestStreakLoop_cons, if_pos (by omega), longestStreakLoop_cons,
        if_pos (by omega), longestStreakLoop_cons, if_neg (by omega),
        longestStreakLoop_nil]
    omega
  rw [hcur, hlong]

/-! ### Claim C6 -/

/-- C6 counterexample: for the set `{yesterday, today, today+5}` the code
computes `current_streak = 0`, while on the subset of dates `≤ today` it
computes `2` — so the current streak is NOT the current streak of the
past-only subset. -/
theorem currentStreak_future_counterexample :
    (updateStreaks 0 [-1, 0, 5]).1 = 0 ∧ (updateStreaks 0 [-1, 0]).1 = 2 := by
  decide

/-- C6 amended: for every completion set containing a date strictly after
`today`, `current_streak = 0`: the walk anchors at the newest completion,
which is a future date and hence neither today nor yesterday, so no run is
counted at all — a future date never closes a "yesterday" gap, but it also
suppresses a run ending at today. -/
theorem currentStreak_zero_of_future (today x : Int) (l : List Int)
    (hx : x ∈ l) (hf : today < x) : (updateStreaks today l).1 = 0 := by
  show currentStreakLoop (sortDates l).reverse today 0 = 0
  have hxs : x ∈ sortDates l := (sortDates_perm l).mem_iff.mpr hx
  have hxr : x ∈ (sortDates l).reverse := List.mem_reverse.mpr hxs
  have hpw : List.Pairwise (fun a b => b ≤ a) (sortDates l).reverse :=
    List.pairwise_reverse.mpr (sortDates_sorted l)
  cases hr : (sortDates l).reverse with
  | nil => rw [hr] at hxr; simp at hxr
  | cons m rest =>
    rw [hr] at hxr hpw
    have hm : today < m := by
      rcases List.mem_cons.mp hxr with rfl | hxr2
      · exact hf
      · have := (List.pairwise_cons.mp hpw).1 x hxr2
        omega
    rw [currentStreakLoop_cons, if_neg (by omega)]

/-- Witness for the amended C6 at `today = 0`, set `{-1, 0, 5}`. -/
theorem currentStreak_zero_of_future_witness :
    ((5 : Int) ∈ ([-1, 0, 5] : List Int)) ∧ (0 : Int) < 5 ∧
      (updateStreaks 0 [-1, 0, 5]).1 = 0 :=
  ⟨by decide, by decide, currentStreak_zero_of_future 0 5 [-1, 0, 5] (by decide) (by decide)⟩

/-! ### Lemmas about the association-list dictionary operations -/

theorem alistLookup_nil {α : Type} (k : Key) :
    alistLookup k ([] : List (Key × α)) = none := rfl

theorem alistLookup_cons {α : Type} (k k1 : Key) (v : α) (rest : List (Key × α)) :
    alistLookup k ((k1, v) :: rest) = if k1 = k then some v else alistLookup k rest := rfl

theorem alistLookup_map_set {α : Type} (k : Key) (v : α) :
    ∀ l : List (Key × α), alistContains k l = true →
      alistLookup k (l.map (fun p => if p.1 = k then (k, v) else p)) = some v := by
  intro l
  induction l with
  | nil => intro h; simp [alistContains, alistLookup_nil] at h
  | cons p rest ih =>
    intro h
    obtain ⟨k1, w⟩ := p
    rw [List.map_cons]
    by_cases hk : k1 = k
    · rw [if_pos hk]
      rw [alistLookup_cons, if_pos rfl]
    · rw [if_neg hk, alistLookup_cons, if_neg hk]
      apply ih
      simp only [alistContains, alistLookup_cons, if_neg hk] at h
      exact h

theorem alistLookup_append_of_not_contains {α : Type} (k : Key) (m : List (Key × α)) :
    ∀ l : List (Key × α), alistContains k l = false →
      alistLookup k (l ++ m) = alistLookup k m := by
  intro l
  induction l with
  | nil => intro _; rfl
  | cons p rest ih =>
    intro h
    obtain ⟨k1, w⟩ := p
    by_cases hk : k1 = k
    · simp only [alistContains, alistLookup_cons, if_pos hk] at h
      simp at h
    · rw [List.cons_append, alistLookup_cons, if_neg hk]
      apply ih
      simp only [alistContains, alistLookup_cons, if_neg hk] at h
      exact h

theorem alistLookup_set_self {α : Type} (k : Key) (v : α) (l : List (Key × α)) :
    alistLookup k (alistSet k v l) = some v := by
  unfold alistSet
  by_cases h : alistContains k l = true
  · rw [if_pos h]
    exact alistLookup_map_set k v l h
  · rw [if_neg h]
    rw [alistLookup_append_of_not_contains k [(k, v)] l (by simpa using h)]
    rw [alistLookup_cons, if_pos rfl]

/-! ### Claim C2 -/

/-- C2: for every store and every id absent from both mappings (in particular
every id absent from the habit mapping of a store satisfying the invariant),
`mark_complete` does NOT produce a `NotFound` outcome and does NOT leave the
store unchanged: it creates a completions entry for the unknown id, appends
today to it, and then raises `KeyError` inside `update_streaks`. -/
theorem markComplete_unknown_raises (s : Store) (k : Key) (t : Int)
    (h1 : alistContains k s.habits = false)
    (h2 : alistContains k s.completions = false) :
    (markComplete s k t).1 = MarkResult.keyError ∧
      alistLookup k (markComplete s k t).2.completions = some [t] ∧
      alistLookup k s.completions = none := by
  have hln : alistLookup k s.habits = none := by
    cases hl : alistLookup k s.habits with
    | none => rfl
    | some v =>
      simp only [alistContains, hl, Option.isSome_some] at h1
      exact Bool.noConfusion h1
  have hcn : alistLookup k s.completions = none := by
    cases hl : alistLookup k s.completions with
    | none => rfl
    | some v =>
      simp only [alistContains, hl, Option.isSome_some] at h2
      exact Bool.noConfusion h2
  have hmc : markComplete s k t =
      (MarkResult.keyError,
       Store.mk s.habits (alistSet k ([] ++ [t]) (alistSet k [] s.completions))) := by
    simp [markComplete, h2, hln, alistLookup_set_self]
  rw [hmc]
  exact ⟨rfl, by rw [alistLookup_set_self]; rfl, hcn⟩

/-- Witness for C2 at the empty store, id `1`, day `0`. -/
theorem markComplete_unknown_raises_witness :
    alistContains (Key.int 1) (Store.mk [] []).habits = false ∧
      alistContains (Key.int 1) (Store.mk [] []).completions = false ∧
      ((markComplete (Store.mk [] []) (Key.int 1) 0).1 = MarkResult.keyError ∧
        alistLookup (Key.int 1)
          (markComplete (Store.mk [] []) (Key.int 1) 0).2.completions = some [0] ∧
        alistLookup (Key.int 1) (Store.mk [] []).completions = none) :=
  ⟨by decide, by decide,
   markComplete_unknown_raises (Store.mk [] []) (Key.int 1) 0 (by decide) (by decide)⟩

/-! ### Claim C3 -/

/-- C3: the id allocated by `add_habit` is `len(habits) + 1`, which DOES
collide with a live habit's id after a deletion: starting from the empty
store, after add, add, delete habit 1, the next add allocates id 2, the id of
the live second habit — whose record it overwrites (and whose old completions
entry the new habit inherits instead of an empty one). -/
theorem addHabit_id_collision :
    (let s0 : Store := Store.mk [] []
     let s1 := (addHabit s0 "a" "Health" "daily" none "d1").2
     let s2 := (addHabit s1 "b" "Health" "daily" none "d2").2
     let s3 := (deleteHabit s2 (Key.int 1)).2
     let r := addHabit s3 "c" "Health" "daily" none "d3"
     r.1 = Key.int 2 ∧ alistContains (Key.int 2) s3.habits = true ∧
       r.2.habits = [(Key.int 2, ⟨"c", "Health", "daily", none, "d3", 0, 0⟩)]) := by
  decide

/-! ### Claim C7 -/

/-- C7: serialising and deserialising is NOT the identity on every store:
a habit added in the current session is keyed by the integer `1`, and
`json.dump` followed by `json.load` turns that key into the string `"1"`,
so the round-tripped store differs from the original. -/
theorem roundTripStore_not_id :
    roundTripStore (Store.mk [(Key.int 1, ⟨"Run", "Health", "daily", none, "2024-01-01", 0, 0⟩)]
        [(Key.int 1, [])]) ≠
      Store.mk [(Key.int 1, ⟨"Run", "Health", "daily", none, "2024-01-01", 0, 0⟩)]
        [(Key.int 1, [])] ∧
    roundTripStore (Store.mk [(Key.int 1, ⟨"Run", "Health", "daily", none, "2024-01-01", 0, 0⟩)]
        [(Key.int 1, [])]) =
      Store.mk [(Key.str "1", ⟨"Run", "Health", "daily", none, "2024-01-01", 0, 0⟩)]
        [(Key.str "1", [])] := by
  decide

/-! ### Claim C8 -/

/-- C8: for every store and every habit whose completion list already contains
today, a second `mark_complete` returns the `AlreadyCompleted` outcome and the
whole store — in particular the completion set and its size — is unchanged. -/
theorem markComplete_already_completed (s : Store) (k : Key) (t : Int) (log : List Int)
    (hl : alistLookup k s.completions = some log) (ht : t ∈ log) :
    markComplete s k t = (MarkResult.alreadyCompleted, s) := by
  have hc : alistContains k s.completions = true := by
    simp [alistContains, hl]
  simp [markComplete, hc, hl, ht]

/-- Witness for C8: marking day `5` twice for habit `1`. -/
theorem markComplete_already_completed_witness :
    alistLookup (Key.int 1)
        (Store.mk [(Key.int 1, ⟨"a", "Health", "daily", none, "d", 1, 1⟩)]
          [(Key.int 1, [5])]).completions = some [5] ∧
      (5 : Int) ∈ ([5] : List Int) ∧
      markComplete (Store.mk [(Key.int 1, ⟨"a", "Health", "daily", none, "d", 1, 1⟩)]
          [(Key.int 1, [5])]) (Key.int 1) 5 =
        (MarkResult.alreadyCompleted,
         Store.mk [(Key.int 1, ⟨"a", "Health", "daily", none, "d", 1, 1⟩)]
           [(Key.int 1, [5])]) :=
  ⟨by decide, by decide,
   markComplete_already_completed
     (Store.mk [(Key.int 1, ⟨"a", "Health", "daily", none, "d", 1, 1⟩)] [(Key.int 1, [5])])
     (Key.int 1) 5 [5] (by decide) (by decide)⟩

/-! ### Claim C10 -/

/-- C10 counterexample: the claim fails when the decimal-string form of the
session habit's integer id is itself a live (file-loaded) key: with habits
keyed `"2"` (loaded) and `2` (session-created), `delete_habit("2")` deletes
the loaded habit instead of reporting `NotFound`, and the store changes. -/
theorem deleteHabit_string_form_collision :
    (deleteHabit (Store.mk
        [(Key.str "2", ⟨"loaded", "Health", "daily", none, "d", 0, 0⟩),
         (Key.int 2, ⟨"session", "Health", "daily", none, "d", 0, 0⟩)]
        [(Key.str "2", []), (Key.int 2, [])]) (Key.str "2")).1 = DeleteResult.deleted ∧
    (deleteHabit (Store.mk
        [(Key.str "2", ⟨"loaded", "Health", "daily", none, "d", 0, 0⟩),
         (Key.int 2, ⟨"session", "Health", "daily", none, "d", 0, 0⟩)]
        [(Key.str "2", []), (Key.int 2, [])]) (Key.str "2")).2 ≠
      Store.mk
        [(Key.str "2", ⟨"loaded", "Health", "daily", none, "d", 0, 0⟩),
         (Key.int 2, ⟨"session", "Health", "daily", none, "d", 0, 0⟩)]
        [(Key.str "2", []), (Key.int 2, [])] := by
  decide

/-- C10 amended: ids are compared by exact key equality with no
normalisation, so for every session-created habit (integer key `n` in the
habit mapping) whose decimal-string form is not itself a key of the mapping,
`delete_habit` invoked with that string reports `NotFound` and leaves the
store unchanged. -/
theorem deleteHabit_string_form_notFound (s : Store) (n : Int)
    (_hsession : alistContains (Key.int n) s.habits = true)
    (hstr : alistContains (Key.str (toString n)) s.habits = false) :
    deleteHabit s (Key.str (toString n)) = (DeleteResult.notFound, s) := by
  unfold deleteHabit
  rw [if_neg (by simp [hstr])]

/-- Witness for the amended C10: a store holding only the session habit `1`. -/
theorem deleteHabit_string_form_notFound_witness :
    alistContains (Key.int 1)
        (Store.mk [(Key.int 1, ⟨"a", "Health", "daily", none, "d", 0, 0⟩)]
          [(Key.int 1, [])]).habits = true ∧
      alistContains (Key.str (toString (1 : Int)))
        (Store.mk [(Key.int 1, ⟨"a", "Health", "daily", none, "d", 0, 0⟩)]
          [(Key.int 1, [])]).habits = false ∧
      deleteHabit (Store.mk [(Key.int 1, ⟨"a", "Health", "daily", none, "d", 0, 0⟩)]
          [(Key.int 1, [])]) (Key.str (toString (1 : Int))) =
        (DeleteResult.notFound,
         Store.mk [(Key.int 1, ⟨"a", "Health", "daily", none, "d", 0, 0⟩)]
           [(Key.int 1, [])]) :=
  ⟨by decide, by decide,
   deleteHabit_string_form_notFound
     (Store.mk [(Key.int 1, ⟨"a", "Health", "daily", none, "d", 0, 0⟩)] [(Key.int 1, [])])
     1 (by decide) (by decide)⟩

/-! ### Key-set lemmas for the invariant -/

theorem alistContains_cons {α : Type} (k k1 : Key) (v : α) (rest : List (Key × α)) :
    alistContains k ((k1, v) :: rest) = if k1 = k then true else alistContains k rest := by
  simp only [alistContains, alistLookup_cons]
  by_cases h : k1 = k
  · rw [if_pos h, if_pos h, Option.isSome_some]
  · rw [if_neg h, if_neg h]

theorem alistContains_map_set {α : Type} (k1 k : Key) (v : α) :
    ∀ l : List (Key × α),
      alistContains k1 (l.map (fun p => if p.1 = k then (k, v) else p)) =
        alistContains k1 l := by
  intro l
  induction l with
  | nil => rfl
  | cons p rest ih =>
    obtain ⟨k2, w⟩ := p
    rw [List.map_cons]
    by_cases hk : k2 = k
    · simp only [if_pos hk]
      subst hk
      rw [alistContains_cons, alistContains_cons, ih]
    · simp only [if_neg hk]
      rw [alistContains_cons, alistContains_cons, ih]

theorem alistContains_append {α : Type} (k : Key) (m : List (Key × α)) :
    ∀ l : List (Key × α),
      alistContains k (l ++ m) = (alistContains k l || alistContains k m) := by
  intro l
  induction l with
  | nil => simp [alistContains, alistLookup_nil]
  | cons p rest ih =>
    obtain ⟨k1, w⟩ := p
    rw [List.cons_append, alistContains_cons, alistContains_cons]
    by_cases h : k1 = k
    · rw [if_pos h, if_pos h, Bool.true_or]
    · rw [if_neg h, if_neg h, ih]

theorem alistContains_set_iff {α : Type} (k1 k : Key) (v : α) (l : List (Key × α)) :
    alistContains k1 (alistSet k v l) = true ↔
      (k1 = k ∨ alistContains k1 l = true) := by
  unfold alistSet
  by_cases h : alistContains k l = true
  · rw [if_pos h, alistContains_map_set]
    constructor
    · exact Or.inr
    · rintro (rfl | hk)
      · exact h
      · exact hk
  · rw [if_neg h, alistContains_append, alistContains_cons]
    by_cases hk : k = k1
    · subst hk
      rw [if_pos rfl]
      simp
    · rw [if_neg hk]
      have : alistContains k1 ([] : List (Key × α)) = false := rfl
      rw [this, Bool.or_false]
      constructor
      · exact Or.inr
      · rintro (rfl | hk2)
        · exact absurd rfl hk
        · exact hk2

theorem alistContains_erase_iff {α : Type} (k1 k : Key) :
    ∀ l : List (Key × α),
      alistContains k1 (alistErase k l) = true ↔
        (¬ k1 = k ∧ alistContains k1 l = true) := by
  intro l
  induction l with
  | nil =>
    unfold alistErase
    simp [alistContains, alistLookup_nil]
  | cons p rest ih =>
    obtain ⟨k2, w⟩ := p
    unfold alistErase at ih ⊢
    rw [List.filter_cons]
    by_cases hk : k2 = k
    · have hc : (decide (¬ (k2, w).1 = k)) = false := by simp [hk]
      rw [hc]
      simp only [Bool.false_eq_true, if_false]
      rw [ih, alistContains_cons]
      constructor
      · rintro ⟨hne, hc2⟩
        exact ⟨hne, by rw [if_neg (by rw [hk]; exact fun he => hne he.symm)]; exact hc2⟩
      · rintro ⟨hne, hc2⟩
        refine ⟨hne, ?_⟩
        rw [if_neg (by rw [hk]; exact fun he => hne he.symm)] at hc2
        exact hc2
    · have hc : (decide (¬ (k2, w).1 = k)) = true := by simp [hk]
      rw [hc]
      simp only [if_true]
      rw [alistContains_cons, alistContains_cons]
      by_cases h2 : k2 = k1
      · rw [if_pos h2, if_pos h2]
        subst h2
        constructor
        · intro _; exact ⟨fun he => hk he, rfl⟩
        · intro _; rfl
      · rw [if_neg h2, if_neg h2]
        exact ih

theorem alistContains_iff_exists {α : Type} (k : Key) :
    ∀ l : List (Key × α),
      alistContains k l = true ↔ ∃ p, p ∈ l ∧ p.1 = k := by
  intro l
  induction l with
  | nil => simp [alistContains, alistLookup_nil]
  | cons p rest ih =>
    obtain ⟨k1, v⟩ := p
    rw [alistContains_cons]
    by_cases h : k1 = k
    · rw [if_pos h]
      simp only [true_iff]
      exact ⟨(k1, v), List.mem_cons_self _ _, h⟩
    · rw [if_neg h, ih]
      constructor
      · rintro ⟨p, hp, hpk⟩
        exact ⟨p, List.mem_cons_of_mem _ hp, hpk⟩
      · rintro ⟨p, hp, hpk⟩
        rcases List.mem_cons.mp hp with rfl | hp2
        · exact absurd hpk h
        · exact ⟨p, hp2, hpk⟩

theorem storeInvB_iff (s : Store) : storeInvB s = true ↔ StoreInv s := by
  unfold storeInvB StoreInv
  rw [Bool.and_eq_true, List.all_eq_true, List.all_eq_true]
  constructor
  · rintro ⟨hh, hc⟩ k
    constructor
    · intro hk
      obtain ⟨p, hp, hpk⟩ := (alistContains_iff_exists k s.habits).mp hk
      have := hh p hp
      rw [hpk] at this
      exact this
    · intro hk
      obtain ⟨p, hp, hpk⟩ := (alistContains_iff_exists k s.completions).mp hk
      have := hc p hp
      rw [hpk] at this
      exact this
  · intro hinv
    constructor
    · intro p hp
      exact (hinv p.1).mp ((alistContains_iff_exists p.1 s.habits).mpr ⟨p, hp, rfl⟩)
    · intro p hp
      exact (hinv p.1).mpr ((alistContains_iff_exists p.1 s.completions).mpr ⟨p, hp, rfl⟩)

/-! ### Equations and invariant preservation for the store operations -/

theorem markComplete_eq_already (s : Store) (k : Key) (t : Int) (log : List Int)
    (hl : alistLookup k s.completions = some log) (ht : t ∈ log) :
    markComplete s k t = (MarkResult.alreadyCompleted, s) := by
  have hc : alistContains k s.completions = true := by simp [alistContains, hl]
  simp [markComplete, hc, hl, ht]

theorem markComplete_eq_success (s : Store) (k : Key) (t : Int) (log : List Int)
    (hab : Habit) (hl : alistLookup k s.completions = some log) (ht : t ∉ log)
    (hh : alistLookup k s.habits = some hab) :
    markComplete s k t =
      (MarkResult.success,
       Store.mk
         (alistSet k
           ⟨hab.name, hab.category, hab.frequency, hab.goal, hab.created_date,
            (updateStreaks t (log ++ [t])).1, (updateStreaks t (log ++ [t])).2⟩ s.habits)
         (alistSet k (log ++ [t]) s.completions)) := by
  have hc : alistContains k s.completions = true := by simp [alistContains, hl]
  simp [markComplete, hc, hl, ht, hh]

theorem deleteHabit_eq_deleted (s : Store) (k : Key)
    (hk : alistContains k s.habits = true)
    (hkc : alistContains k s.completions = true) :
    deleteHabit s k =
      (DeleteResult.deleted,
       Store.mk (alistErase k s.habits) (alistErase k s.completions)) := by
  simp [deleteHabit, hk, hkc]

theorem deleteHabit_eq_notFound (s : Store) (k : Key)
    (hk : alistContains k s.habits = false) :
    deleteHabit s k = (DeleteResult.notFound, s) := by
  simp [deleteHabit, hk]

theorem addHabit_inv (s : Store) (n c f : String) (g : Option String) (d : String)
    (h : StoreInv s) : StoreInv (addHabit s n c f g d).2 := by
  intro k1
  unfold addHabit
  dsimp only
  by_cases hc : alistContains (Key.int ((s.habits.length : Int) + 1)) s.completions = true
  · rw [if_pos hc, alistContains_set_iff]
    constructor
    · rintro (rfl | hk)
      · exact hc
      · exact (h k1).mp hk
    · intro hk
      exact Or.inr ((h k1).mpr hk)
  · rw [if_neg hc, alistContains_set_iff, alistContains_set_iff]
    constructor
    · rintro (rfl | hk)
      · exact Or.inl rfl
      · exact Or.inr ((h k1).mp hk)
    · rintro (rfl | hk)
      · exact Or.inl rfl
      · exact Or.inr ((h k1).mpr hk)

theorem markComplete_inv (s : Store) (k : Key) (t : Int) (h : StoreInv s)
    (hk : alistContains k s.habits = true) : StoreInv (markComplete s k t).2 := by
  have hkc : alistContains k s.completions = true := (h k).mp hk
  have hkc2 : (alistLookup k s.completions).isSome = true := hkc
  obtain ⟨log, hlog⟩ := Option.isSome_iff_exists.mp hkc2
  have hk2 : (alistLookup k s.habits).isSome = true := hk
  obtain ⟨hab, hhab⟩ := Option.isSome_iff_exists.mp hk2
  by_cases ht : t ∈ log
  · rw [markComplete_eq_already s k t log hlog ht]
    exact h
  · rw [markComplete_eq_success s k t log hab hlog ht hhab]
    intro k1
    dsimp only
    rw [alistContains_set_iff, alistContains_set_iff]
    constructor
    · rintro (rfl | hk1)
      · exact Or.inl rfl
      · exact Or.inr ((h k1).mp hk1)
    · rintro (rfl | hk1)
      · exact Or.inl rfl
      · exact Or.inr ((h k1).mpr hk1)

theorem deleteHabit_inv (s : Store) (k : Key) (h : StoreInv s) :
    StoreInv (deleteHabit s k).2 := by
  by_cases hk : alistContains k s.habits = true
  · have hkc := (h k).mp hk
    rw [deleteHabit_eq_deleted s k hk hkc]
    intro k1
    dsimp only
    rw [alistContains_erase_iff, alistContains_erase_iff]
    constructor
    · rintro ⟨hne, hc⟩
      exact ⟨hne, (h k1).mp hc⟩
    · rintro ⟨hne, hc⟩
      exact ⟨hne, (h k1).mpr hc⟩
  · rw [deleteHabit_eq_notFound s k (by simpa using hk)]
    exact h

theorem goodOpsB_cons (s : Store) (op : Op) (rest : List Op) :
    goodOpsB s (op :: rest) = (goodOpB s op && goodOpsB (applyOp s op) rest) := rfl

theorem runOps_cons (s : Store) (op : Op) (rest : List Op) :
    runOps s (op :: rest) = runOps (applyOp s op) rest := rfl

/-! ### Claim C4 -/

/-- C4 counterexample: the invariant is NOT preserved by every operation
sequence — `mark_complete` on an id absent from the habit mapping (here on
the empty store) creates a dangling completions entry, leaving a store where
a completions id has no corresponding habit. -/
theorem storeInv_broken_by_unknown_mark :
    storeInvB (Store.mk [] []) = true ∧
      storeInvB (runOps (Store.mk [] []) [Op.mark (Key.int 1) 0]) = false := by
  decide

/-- C4 amended: after every sequence of `add_habit`, `delete_habit` and
`mark_complete` operations in which each `mark_complete` targets an id present
in the habit mapping at the time it runs, a store satisfying the invariant
(every habit id has a completions entry and vice versa) still satisfies it. -/
theorem storeInv_preserved_by_good_ops : ∀ (ops : List Op) (s : Store),
    storeInvB s = true → goodOpsB s ops = true →
    storeInvB (runOps s ops) = true := by
  intro ops
  induction ops with
  | nil => intro s h _; exact h
  | cons op rest ih =>
    intro s h hg
    rw [goodOpsB_cons, Bool.and_eq_true] at hg
    obtain ⟨h1, h2⟩ := hg
    have hstep : storeInvB (applyOp s op) = true := by
      rw [storeInvB_iff] at h ⊢
      cases op with
      | add n c f g d => exact addHabit_inv s n c f g d h
      | mark k t => exact markComplete_inv s k t h h1
      | del k => exact deleteHabit_inv s k h
    rw [runOps_cons]
    exact ih (applyOp s op) hstep h2

/-- Witness for the amended C4: add a habit, mark it on day 5, delete it. -/
theorem storeInv_preserved_by_good_ops_witness :
    storeInvB (Store.mk [] []) = true ∧
      goodOpsB (Store.mk [] [])
        [Op.add "a" "Health" "daily" none "d", Op.mark (Key.int 1) 5,
         Op.del (Key.int 1)] = true ∧
      storeInvB (runOps (Store.mk [] [])
        [Op.add "a" "Health" "daily" none "d", Op.mark (Key.int 1) 5,
         Op.del (Key.int 1)]) = true :=
  ⟨by decide, by decide,
   storeInv_preserved_by_good_ops
     [Op.add "a" "Health" "daily" none "d", Op.mark (Key.int 1) 5, Op.del (Key.int 1)]
     (Store.mk [] []) (by decide) (by decide)⟩

/-! ### Claim C9 -/

/-- C9: every percentage of the weekly report and of the category statistics
equals `completed / total * 100` guarded to `0` when the denominator is zero,
and the per-category average streak guards the empty group, yielding `0` — so
neither report ever divides by zero. -/
theorem report_percentages_spec (s : Store) (weekStart today : Int) :
    (∀ x ∈ weeklyPerDay s weekStart, x.2 = specPercentage x.1 s.habits.length) ∧
      weeklyAggregate s weekStart =
        specPercentage ((weeklyDaily s weekStart).sum) (s.habits.length * 7) ∧
      (∀ y ∈ viewCategoryStats s today,
        y.2.1 = specPercentage (catStatsFor s today y.1).completed
            (catStatsFor s today y.1).total ∧
          y.2.2.1 = specAverage (catStatsFor s today y.1).streaks) := by
  refine ⟨?_, ?_, ?_⟩
  · intro x hx
    simp only [weeklyPerDay, List.mem_map] at hx
    obtain ⟨c, _, rfl⟩ := hx
    simp only [specPercentage]
    by_cases h : s.habits.length = 0
    · rw [if_pos h, if_neg (by omega)]
    · rw [if_neg h, if_pos (by omega)]
  · simp only [weeklyAggregate, specPercentage]
    by_cases h : s.habits.length * 7 = 0
    · rw [if_pos h, if_neg (by omega)]
    · rw [if_neg h, if_pos (by omega)]
  · intro y hy
    simp only [viewCategoryStats, List.mem_map] at hy
    obtain ⟨c, _, rfl⟩ := hy
    refine ⟨?_, rfl⟩
    simp only [completionRate, specPercentage]
    by_cases h : (catStatsFor s today c).total = 0
    · rw [if_pos h, if_neg (by omega)]
    · rw [if_neg h, if_pos (by omega)]

/-- Witness for C9: the first day of the weekly report of the empty store. -/
theorem report_percentages_spec_witness :
    ((0, (0 : Rat)) ∈ weeklyPerDay (Store.mk [] []) 0) ∧
      ((0, (0 : Rat)) : Nat × Rat).2 =
        specPercentage ((0, (0 : Rat)) : Nat × Rat).1 (Store.mk [] []).habits.length := by
  have hmem : ((0, (0 : Rat)) : Nat × Rat) ∈ weeklyPerDay (Store.mk [] []) 0 := by
    decide
  exact ⟨hmem, (report_percentages_spec (Store.mk [] []) 0 0).1 (0, (0 : Rat)) hmem⟩
